import Mathlib

/-!
# Verification of the opic cash-ledger library

A shallow embedding of the `opic` Go package (Adaptive OPIC algorithm):
the in-memory cash ledger (`opic.go`), the binary codec and the
persistence layer, together with theorems about the properties the
specification claims.

Modelling conventions:

* Go `map[uint64]float64` / `map[uint64]time.Time` become `FMap ℚ` /
  `FMap ℤ`: a total function together with an explicit finite domain.
  Reading an absent key yields the zero value and does not insert the
  key; writing inserts it — exactly the Go map semantics used by the
  source.  The well-formedness predicate `FMap.WF` (the function is zero
  outside the domain) is the link between the two.
* `float64` cash amounts become `ℚ` (exact real arithmetic); the
  specification's "up to floating-point rounding" margins are zero in
  this model, so conservation statements are exact equalities.
* `time.Time` and `time.Duration` become `ℤ`, counted in nanoseconds
  (Go durations are int64 nanosecond counts); `time.Time.Unix()`
  becomes floor division by `10 ^ 9` and `time.Unix(sec, 0)` becomes
  multiplication by `10 ^ 9`.  The zero value of `time.Time` becomes
  `0`.
* The call `time.Now()` inside `Distribute` becomes an explicit `now`
  parameter of the embedded function.
* Go strings become lists of bytes (`List ℕ`, each element `< 256`),
  hashed with the same FNV-1 64-bit hash as `hash/fnv`'s `New64`.
* The 8-byte records of the binary persistence format become `Word`
  tokens (one token per 8-byte group); the byte stream becomes
  `List Word`.  Files and the filesystem are modelled explicitly for
  the persistence layer.
-/

namespace Opic

/-! ## Finite maps with Go semantics -/

/-- A finite map from 64-bit keys to values, mirroring a Go map: an
explicit domain of present keys plus a total lookup function. -/
structure FMap (α : Type) [Zero α] where
  dom : Finset ℕ
  val : ℕ → α

variable {α : Type} [Zero α]

/-- The empty map (`make(map[uint64]V)`). -/
def FMap.empty : FMap α := ⟨∅, fun _ => 0⟩

/-- Go map read `m[k]`: the zero value when the key is absent. -/
def FMap.get (m : FMap α) (k : ℕ) : α := m.val k

/-- Go map write `m[k] = v`: inserts the key. -/
def FMap.set (m : FMap α) (k : ℕ) (v : α) : FMap α :=
  ⟨insert k m.dom, Function.update m.val k v⟩

/-- Go `len(m)`: the number of present keys. -/
def FMap.size (m : FMap α) : ℕ := m.dom.card

/-- Well-formedness: the lookup function is zero outside the domain,
so that `get` really models the Go read-with-default. -/
def FMap.WF (m : FMap α) : Prop := ∀ k, k ∉ m.dom → m.val k = 0

/-- The sum of all values of the map, as computed by a Go `range` loop
(the iteration order is irrelevant for a commutative sum). -/
def FMap.total (m : FMap ℚ) : ℚ := ∑ k ∈ m.dom, m.val k

/-- Add `x` to the entry of each key in `ks`, in order — the body of the
output loop of `Distribute` (`o.current[outH] = o.current[outH] + share`). -/
def FMap.addAll (m : FMap ℚ) (ks : List ℕ) (x : ℚ) : FMap ℚ :=
  ks.foldl (fun m k => m.set k (m.get k + x)) m

/-- Set the entry of each key in `ks` to the constant `v` — the loop of
`InitialiseN` (`o.current[u] = n`). -/
def FMap.setAllConst (m : FMap ℚ) (ks : List ℕ) (v : ℚ) : FMap ℚ :=
  ks.foldl (fun m k => m.set k v) m

/-- Insert time `now` for each key of `ks` that is not yet present — the
`cleared` part of the output loop of `Distribute`. -/
def FMap.markSeen (m : FMap ℤ) (ks : List ℕ) (now : ℤ) : FMap ℤ :=
  ks.foldl (fun m k => if k ∈ m.dom then m else m.set k now) m

/-- A list enumerates a finite domain: the possible iteration orders of
a Go map are exactly the `Enumerates` lists of its key set. -/
abbrev Enumerates (ks : List ℕ) (d : Finset ℕ) : Prop :=
  ks.Nodup ∧ ks.toFinset = d

/-! ## The FNV-1 64-bit hash (`hash/fnv`, `fnv.New64`) -/

/-- The FNV-1 64-bit prime. -/
def fnvPrime : ℕ := 1099511628211

/-- The FNV-1 64-bit offset basis. -/
def fnvOffset : ℕ := 14695981039346656037

/-- One step of FNV-1: multiply by the prime modulo `2 ^ 64`, then xor
the next byte in. -/
def fnvStep (h b : ℕ) : ℕ := Nat.xor (h * fnvPrime % 2 ^ 64) b

/-- `fnvHash` from `opic.go`: the FNV-1 64-bit hash of a byte string
(identifiers are modelled as their lists of UTF-8 bytes). -/
def fnvHash (s : List ℕ) : ℕ := s.foldl fnvStep fnvOffset

/-! ## The cash ledger (`opic.go`) -/

/-- `OPIC` holds all the state for running the Adaptive OPIC algorithm:
the three key-to-value mappings plus the dirty flag.  The `sync.RWMutex`
has no content in this sequential model: every Go method body runs
entirely under one lock acquisition, so each operation is one atomic
state transition, which is exactly a Lean function on `OPIC`. -/
structure OPIC where
  dirty : Bool
  current : FMap ℚ
  cleared : FMap ℤ
  history : FMap ℚ

/-- `New` constructs a new OPIC object: empty maps, clean. -/
def New : OPIC := ⟨false, FMap.empty, FMap.empty, FMap.empty⟩

/-- `InitialiseN`: set the total cash for the system and distribute it
evenly amongst a collection of keys (`n := cash / len(in)`; each key's
current cash is overwritten with `n`).  On the empty list the Go code
computes a non-finite `n` (float division by zero) which the empty loop
then never stores; here the unused `n` is `cash / 0 = 0`, and the maps
are likewise untouched.  There is no error return. -/
def InitialiseN (o : OPIC) (cash : ℚ) (ids : List ℕ) : OPIC :=
  { o with
    current := o.current.setAllConst ids (cash / (ids.length : ℚ)),
    dirty := true }

/-- `Initialise`: hash the identifiers, then `InitialiseN`. -/
def Initialise (o : OPIC) (cash : ℚ) (ids : List (List ℕ)) : OPIC :=
  InitialiseN o cash (ids.map fnvHash)

/-- The per-output share of `Distribute`: `c / (len(out) + 1)` where
`c` is the source's current cash. -/
def distShare (o : OPIC) (sourceH : ℕ) (out : List ℕ) : ℚ :=
  o.current.get sourceH / ((out.length : ℚ) + 1)

/-- The current-cash map of `Distribute` after the share has been added
to the virtual entry (key 0) and to every output key, in loop order. -/
def distCur2 (o : OPIC) (sourceH : ℕ) (out : List ℕ) : FMap ℚ :=
  (o.current.set 0 (o.current.get 0 + distShare o sourceH out)).addAll
    out (distShare o sourceH out)

/-- The skim of `Distribute`: `d = current[0] / (len(current) + 1)`,
taken after the share loop has run. -/
def distSkim (o : OPIC) (sourceH : ℕ) (out : List ℕ) : ℚ :=
  (distCur2 o sourceH out).get 0 / (((distCur2 o sourceH out).size : ℚ) + 1)

/-- `Distribute` on hashed keys: distribute the cash from the source key
to the output keys and the virtual entry, skim the virtual entry, make
the skim the source's new current cash, record the clearing time and the
history baseline, and return the distributed amount `c`.

The Go source calls `time.Now()` for outputs seen for the first time;
that wall clock is the explicit `now` parameter here. -/
def DistributeN (o : OPIC) (sourceH : ℕ) (out : List ℕ) (t now : ℤ) :
    OPIC × ℚ :=
  ({ dirty := true,
     current :=
       ((distCur2 o sourceH out).set 0
          ((distCur2 o sourceH out).get 0 - distSkim o sourceH out)).set
         sourceH (distSkim o sourceH out),
     cleared := (o.cleared.markSeen out now).set sourceH t,
     history := o.history.set sourceH (o.current.get sourceH) },
   o.current.get sourceH)

/-- `Distribute`: distributes the cash from the input to the outputs and
marks the input as having been fetched (the Go code hashes `source` once
and each output inside the loop; hashing the whole list first is the
same computation). -/
def Distribute (o : OPIC) (source : List ℕ) (out : List (List ℕ))
    (t now : ℤ) : OPIC × ℚ :=
  DistributeN o (fnvHash source) (out.map fnvHash) t now

/-- The loop body of `Finalise`: move one key's current cash into its
history and zero its current cash. -/
def finaliseOne (o : OPIC) (inH : ℕ) : OPIC :=
  { o with
    history := o.history.set inH (o.current.get inH),
    current := o.current.set inH 0 }

/-- `FinaliseN`: move all the current values into the history for the
input keys. -/
def FinaliseN (o : OPIC) (ids : List ℕ) : OPIC :=
  { ids.foldl finaliseOne o with dirty := true }

/-- `Finalise`: hash the identifiers, then move current into history. -/
def Finalise (o : OPIC) (ids : List (List ℕ)) : OPIC :=
  FinaliseN o (ids.map fnvHash)

/-- `GetN` gets the details for an entry: `(history, current, cleared)`. -/
def GetN (o : OPIC) (v : ℕ) : ℚ × ℚ × ℤ :=
  (o.history.get v, o.current.get v, o.cleared.get v)

/-- `Get` gets the details for an entry referenced by identifier. -/
def Get (o : OPIC) (s : List ℕ) : ℚ × ℚ × ℤ := GetN o (fnvHash s)

/-- `EstimateN` estimates the total for an entry: with `h`, `c`, `vt`
from `GetN` and elapsed `d = t - vt`, the estimate is
`h * (interval - d) / interval + c` while `d < interval`, and
`c * (interval / d)` afterwards.  Times and intervals are integer
nanosecond counts, converted exactly to `ℚ` where the Go code converts
to `float64`. -/
def EstimateN (o : OPIC) (v : ℕ) (interval t : ℤ) : ℚ :=
  let h := (GetN o v).1
  let c := (GetN o v).2.1
  let vt := (GetN o v).2.2
  let d := t - vt
  if d < interval then
    h * ((interval : ℚ) - (d : ℚ)) / (interval : ℚ) + c
  else
    c * ((interval : ℚ) / (d : ℚ))

/-- `Estimate` estimates the total for an entry by identifier. -/
def Estimate (o : OPIC) (s : List ℕ) (interval t : ℤ) : ℚ :=
  EstimateN o (fnvHash s) interval t

/-- `Dirty` returns true if there have been changes since the last
load or save. -/
def Dirty (o : OPIC) : Bool := o.dirty

/-- `Sums` returns `(total history, total current)`. -/
def Sums (o : OPIC) : ℚ × ℚ := (o.history.total, o.current.total)

/-- `EnsureBalance` tops up the cash in the system: when the two sums
fall short of `n`, the deficit is added to the virtual entry's current
cash; the dirty flag is set in both cases (the Go code sets it after the
conditional). -/
def EnsureBalance (o : OPIC) (n : ℚ) : OPIC :=
  if (Sums o).1 + (Sums o).2 < n then
    { o with
      current := o.current.set 0
        (o.current.get 0 + (n - ((Sums o).1 + (Sums o).2))),
      dirty := true }
  else { o with dirty := true }

/-- `Virtual` gets the details for the "virtual" entry (key 0). -/
def Virtual (o : OPIC) : ℚ × ℚ := (o.history.get 0, o.current.get 0)

/-! ## Reachable ledger states

States produced from a fresh ledger by one even initialisation over
distinct keys followed by any number of distributions whose source key
is nonzero and does not collide with that call's output keys. -/

/-- Reachability with the conserved injected amount as an index. -/
inductive Reaches : OPIC → ℚ → Prop
  | init (cash : ℚ) (ids : List ℕ) (hnd : ids.Nodup) (hne : ids ≠ []) :
      Reaches (InitialiseN New cash ids) cash
  | dist (o : OPIC) (cash : ℚ) (sourceH : ℕ) (out : List ℕ) (t now : ℤ)
      (h : Reaches o cash) (h0 : sourceH ≠ 0) (hs : sourceH ∉ out) :
      Reaches (DistributeN o sourceH out t now).1 cash

/-! ## The concrete scenario of the specification -/

/-- The identifier `"a"` as UTF-8 bytes. -/
def idA : List ℕ := [97]

/-- The identifier `"b"` as UTF-8 bytes. -/
def idB : List ℕ := [98]

/-- The identifier `"c"` as UTF-8 bytes. -/
def idC : List ℕ := [99]

/-- The ledger after `Initialise(3.0, ["a","b","c"])`. -/
def scen0 : OPIC := Initialise New 3 [idA, idB, idC]

/-- The scenario's clearing time `t1`. -/
def scenT1 : ℤ := 5

/-- The wall-clock time of the scenario's `Distribute` call. -/
def scenNow : ℤ := 7

/-- The ledger after the subsequent `Distribute("a", ["b"], t1)`. -/
def scen1 : OPIC := (Distribute scen0 idA [idB] scenT1 scenNow).1

/-- The ledger after `Distribute("a", ["a"], t1)` instead — the source
listed among its own outputs. -/
def scenSelf : OPIC := (Distribute scen0 idA [idA] scenT1 scenNow).1

/-! ## The binary codec (`Serialisable`) -/

/-- One 8-byte group of the binary persistence format: an unsigned
64-bit integer, an IEEE-754 double (held verbatim, modelled in `ℚ`), or
a signed 64-bit integer. -/
inductive Word
  | u64 (n : ℕ)
  | f64 (q : ℚ)
  | i64 (z : ℤ)
deriving DecidableEq

/-- The 8 magic bytes `#opicdb#`, read as one big-endian 64-bit group. -/
def expectedMagic : ℕ := 0x236F706963646223

/-- Nanoseconds per second: the factor between the in-memory time
representation and the on-disk Unix-seconds representation. -/
def nanosPerSecond : ℤ := 1000000000

/-- The serialised entries of a cash map in iteration order `ks`:
`(8-byte key, 8-byte double)` pairs. -/
def entriesQ (m : FMap ℚ) : List ℕ → List Word
  | [] => []
  | k :: ks => .u64 k :: .f64 (m.get k) :: entriesQ m ks

/-- The serialised entries of the cleared-time map in iteration order
`ks`: `(8-byte key, 8-byte Unix seconds)` pairs, the seconds obtained by
`time.Time.Unix()` (floor division of nanoseconds). -/
def entriesT (m : FMap ℤ) : List ℕ → List Word
  | [] => []
  | k :: ks => .u64 k :: .i64 ((m.get k).fdiv nanosPerSecond) :: entriesT m ks

/-- `Serialisable.WriteTo`: magic, version 1, then each of the three
maps as a count followed by its entries.  A Go map has no canonical
iteration order, so the orders are parameters `kc`, `kh`, `kf` (one per
map); a real run corresponds to orders that enumerate the domains. -/
def WriteTo (s : OPIC) (kc kh kf : List ℕ) : List Word :=
  [Word.u64 expectedMagic, Word.u64 1, Word.u64 s.current.size]
    ++ entriesQ s.current kc
    ++ [Word.u64 s.history.size] ++ entriesQ s.history kh
    ++ [Word.u64 s.cleared.size] ++ entriesT s.cleared kf

/-- Decode failures of `ReadFrom` (`binary.Read` errors and the explicit
magic/version checks). -/
inductive ReadErr
  | readFailed
  | invalidMagic
  | invalidVersion
deriving DecidableEq

/-- Read one unsigned 64-bit group. -/
def readU64 : List Word → Except ReadErr (ℕ × List Word)
  | .u64 n :: ws => .ok (n, ws)
  | _ => .error .readFailed

/-- Read `n` key/double entries. -/
def readPairsQ : ℕ → List Word → Except ReadErr (List (ℕ × ℚ) × List Word)
  | 0, ws => .ok ([], ws)
  | n + 1, .u64 k :: .f64 v :: ws =>
      (readPairsQ n ws).bind fun pr => .ok ((k, v) :: pr.1, pr.2)
  | _ + 1, _ => .error .readFailed

/-- Read `n` key/seconds entries. -/
def readPairsT : ℕ → List Word → Except ReadErr (List (ℕ × ℤ) × List Word)
  | 0, ws => .ok ([], ws)
  | n + 1, .u64 k :: .i64 v :: ws =>
      (readPairsT n ws).bind fun pr => .ok ((k, v) :: pr.1, pr.2)
  | _ + 1, _ => .error .readFailed

/-- Store a list of decoded cash entries into a map, in stream order —
the `s.current[e.K] = e.V` writes of the decode loops. -/
def storePairsQ (m : FMap ℚ) (ps : List (ℕ × ℚ)) : FMap ℚ :=
  ps.foldl (fun m e => m.set e.1 e.2) m

/-- Store a list of decoded time entries into a map, in stream order;
`time.Unix(sec, 0)` turns seconds back into the nanosecond
representation. -/
def storePairsT (m : FMap ℤ) (ps : List (ℕ × ℤ)) : FMap ℤ :=
  ps.foldl (fun m e => m.set e.1 (e.2 * nanosPerSecond)) m

/-- `Serialisable.ReadFrom`: check magic and version, then decode the
three maps into the receiver `s` (the Go loops write each decoded entry
into the existing maps; collecting the entries first and then storing
them performs the identical writes in the identical order).  The dirty
flag is not touched. -/
def ReadFrom (s : OPIC) (ws : List Word) : Except ReadErr OPIC :=
  (readU64 ws).bind fun mw =>
    if mw.1 = expectedMagic then
      (readU64 mw.2).bind fun vw =>
        if vw.1 = 1 then
          (readU64 vw.2).bind fun cw =>
            (readPairsQ cw.1 cw.2).bind fun pc =>
              (readU64 pc.2).bind fun hw =>
                (readPairsQ hw.1 hw.2).bind fun ph =>
                  (readU64 ph.2).bind fun tw =>
                    (readPairsT tw.1 tw.2).bind fun pt =>
                      .ok { s with
                        current := storePairsQ s.current pc.1,
                        history := storePairsQ s.history ph.1,
                        cleared := storePairsT s.cleared pt.1 }
        else .error .invalidVersion
    else .error .invalidMagic

/-! ## The persistence controller (`Persistent`) -/

/-- A file path, split into its directory and base name. -/
structure FsPath where
  dir : String
  base : String
deriving DecidableEq

/-- A filesystem: contents (as codec word streams) indexed by path. -/
def FS : Type := FsPath → Option (List Word)

/-- Modelled from the Go standard library: `ioutil.TempFile("", pat)`
creates its file in the system default temporary directory, a fixed
location independent of any target path. -/
def goTempDir : String := "/tmp"

/-- The path of the temporary file `Save` creates: always inside the
system temporary directory, with some fresh base name. -/
def tempPath (name : String) : FsPath := ⟨goTempDir, name⟩

/-- Follows the spec's words, for the refinement comparison only: in
this model a directory is a mount point, so two paths are on the same
filesystem exactly when they are in the same directory. -/
def sameFilesystem (p q : FsPath) : Prop := p.dir = q.dir

/-- `Persistent.Save` as the sequence of filesystem states it creates:
after `TempFile` (fresh empty file in the temporary directory), after
`WriteTo` plus `Close` (the serialised ledger in the temporary file),
and after `os.Rename` (the temporary file moved over the target). -/
def SaveStates (fs : FS) (target : FsPath) (s : OPIC) (kc kh kf : List ℕ)
    (tmp : String) : List FS :=
  [fs,
   fun p => if p = tempPath tmp then some [] else fs p,
   fun p => if p = tempPath tmp then some (WriteTo s kc kh kf) else fs p,
   fun p =>
     if p = target then some (WriteTo s kc kh kf)
     else if p = tempPath tmp then none else fs p]

/-- `Persistent.Save`: the final filesystem (the serialised ledger
renamed over the target, the temporary file gone) together with the
ledger, whose dirty flag is cleared on success. -/
def Save (fs : FS) (target : FsPath) (s : OPIC) (kc kh kf : List ℕ)
    (tmp : String) : FS × OPIC :=
  ((fun p =>
      if p = target then some (WriteTo s kc kh kf)
      else if p = tempPath tmp then none else fs p),
   { s with dirty := false })

/-- The empty filesystem, on which the save scenario below runs. -/
def emptyFS : FS := fun _ => none

/-- A sample target path for the backing file, in a data directory that
is not the system temporary directory. -/
def dataTarget : FsPath := ⟨"/data", "opic.db"⟩

/-- The load options of the current library surface
(`opic.PersistentLoadOptions`). -/
structure PersistentLoadOptions where
  ignoreMissing : Bool

/-- Load failures: the file was absent, or decoding failed. -/
inductive LoadErr
  | fileMissing
  | decode (e : ReadErr)
deriving DecidableEq

/-- Modelled from the spec: `Persistent.Load(options)` with
`PersistentLoadOptions{IgnoreMissing}` is called by the CLI
(`src/unnamed/part_000`) but its definition is not among the provided
sources; only an older optionless `Load` is (`src/unnamed/part_002`).
Following the spec (§4.3, §7, §8) and that older code: a missing file
is tolerated, leaving the ledger at its current state with no error,
exactly when the caller opts in; a missing file is an I/O error
otherwise; decode failures are surfaced; on success the dirty flag is
cleared.  `file` is the backing file's content, `none` when the file
does not exist. -/
def Load (s : OPIC) (file : Option (List Word))
    (opts : PersistentLoadOptions) : Except LoadErr OPIC :=
  match file with
  | none =>
      if opts.ignoreMissing then .ok s else .error .fileMissing
  | some ws =>
      match ReadFrom s ws with
      | .error e => .error (.decode e)
      | .ok t => .ok { t with dirty := false }

/-! ## Map lemmas -/

theorem FMap.empty_WF : (FMap.empty : FMap α).WF := fun _ _ => rfl

theorem FMap.get_set (m : FMap α) (k : ℕ) (v : α) (x : ℕ) :
    (m.set k v).get x = if x = k then v else m.get x := by
  simp [FMap.set, FMap.get, Function.update_apply]

theorem FMap.get_set_self (m : FMap α) (k : ℕ) (v : α) :
    (m.set k v).get k = v := by simp [FMap.get_set]

theorem FMap.get_set_ne (m : FMap α) (k : ℕ) (v : α) (x : ℕ) (h : x ≠ k) :
    (m.set k v).get x = m.get x := by simp [FMap.get_set, h]

theorem FMap.set_dom (m : FMap α) (k : ℕ) (v : α) :
    (m.set k v).dom = insert k m.dom := rfl

theorem FMap.set_WF (m : FMap α) (k : ℕ) (v : α) (h : m.WF) :
    (m.set k v).WF := by
  intro x hx
  rw [FMap.set_dom, Finset.mem_insert] at hx
  push_neg at hx
  show Function.update m.val k v x = 0
  rw [Function.update_apply, if_neg hx.1]
  exact h x hx.2

theorem FMap.get_eq_zero (m : FMap α) (h : m.WF) (k : ℕ) (hk : k ∉ m.dom) :
    m.get k = 0 := h k hk

/-- Writing a key changes the total by the difference between new and
old value (for well-formed maps). -/
theorem FMap.total_set (m : FMap ℚ) (h : m.WF) (k : ℕ) (v : ℚ) :
    (m.set k v).total = m.total - m.get k + v := by
  classical
  show ∑ x ∈ insert k m.dom, Function.update m.val k v x
      = (∑ x ∈ m.dom, m.val x) - m.val k + v
  by_cases hk : k ∈ m.dom
  · rw [Finset.insert_eq_self.mpr hk, Finset.sum_update_of_mem hk,
      Finset.sdiff_singleton_eq_erase]
    have h2 : ∑ x ∈ m.dom.erase k, m.val x + m.val k = ∑ x ∈ m.dom, m.val x :=
      Finset.sum_erase_add m.dom m.val hk
    linarith
  · rw [Finset.sum_insert hk]
    have h2 : ∑ x ∈ m.dom, Function.update m.val k v x = ∑ x ∈ m.dom, m.val x := by
      refine Finset.sum_congr rfl fun x hx => ?_
      have hxk : x ≠ k := fun hh => hk (hh ▸ hx)
      exact Function.update_noteq hxk v m.val
    rw [h2, Function.update_same, h k hk]
    ring

theorem FMap.addAll_nil (m : FMap ℚ) (x : ℚ) : m.addAll [] x = m := rfl

theorem FMap.addAll_cons (m : FMap ℚ) (k : ℕ) (ks : List ℕ) (x : ℚ) :
    m.addAll (k :: ks) x = (m.set k (m.get k + x)).addAll ks x := rfl

theorem FMap.addAll_WF (m : FMap ℚ) (ks : List ℕ) (x : ℚ) (h : m.WF) :
    (m.addAll ks x).WF := by
  induction ks generalizing m with
  | nil => exact h
  | cons k ks ih => exact ih _ (m.set_WF k _ h)

theorem FMap.addAll_get (m : FMap ℚ) (ks : List ℕ) (x : ℚ) (y : ℕ) :
    (m.addAll ks x).get y = m.get y + (ks.count y : ℚ) * x := by
  induction ks generalizing m with
  | nil => simp [FMap.addAll]
  | cons k ks ih =>
      rw [FMap.addAll_cons, ih]
      by_cases hy : y = k
      · subst hy
        rw [FMap.get_set_self, List.count_cons_self]
        push_cast
        ring
      · rw [FMap.get_set_ne _ _ _ _ hy, List.count_cons_of_ne hy]

theorem FMap.addAll_dom (m : FMap ℚ) (ks : List ℕ) (x : ℚ) :
    (m.addAll ks x).dom = m.dom ∪ ks.toFinset := by
  induction ks generalizing m with
  | nil => simp [FMap.addAll]
  | cons k ks ih =>
      rw [FMap.addAll_cons, ih, FMap.set_dom, List.toFinset_cons,
        Finset.insert_union, Finset.union_insert]

theorem FMap.addAll_total (m : FMap ℚ) (ks : List ℕ) (x : ℚ) (h : m.WF) :
    (m.addAll ks x).total = m.total + (ks.length : ℚ) * x := by
  induction ks generalizing m with
  | nil => simp [FMap.addAll]
  | cons k ks ih =>
      rw [FMap.addAll_cons, ih _ (m.set_WF k _ h), m.total_set h,
        List.length_cons]
      push_cast
      ring

theorem FMap.setAllConst_cons (m : FMap ℚ) (k : ℕ) (ks : List ℕ) (v : ℚ) :
    m.setAllConst (k :: ks) v = (m.set k v).setAllConst ks v := rfl

theorem FMap.setAllConst_WF (m : FMap ℚ) (ks : List ℕ) (v : ℚ) (h : m.WF) :
    (m.setAllConst ks v).WF := by
  induction ks generalizing m with
  | nil => exact h
  | cons k ks ih => exact ih _ (m.set_WF k _ h)

theorem FMap.setAllConst_get (m : FMap ℚ) (ks : List ℕ) (v : ℚ) (y : ℕ) :
    (m.setAllConst ks v).get y = if y ∈ ks then v else m.get y := by
  induction ks generalizing m with
  | nil => simp [FMap.setAllConst]
  | cons k ks ih =>
      rw [FMap.setAllConst_cons, ih]
      by_cases hy : y ∈ ks
      · simp [hy]
      · by_cases hyk : y = k
        · subst hyk
          simp [hy, FMap.get_set_self]
        · simp [hy, hyk, FMap.get_set_ne _ _ _ _ hyk]

theorem FMap.setAllConst_dom (m : FMap ℚ) (ks : List ℕ) (v : ℚ) :
    (m.setAllConst ks v).dom = m.dom ∪ ks.toFinset := by
  induction ks generalizing m with
  | nil => simp [FMap.setAllConst]
  | cons k ks ih =>
      rw [FMap.setAllConst_cons, ih, FMap.set_dom, List.toFinset_cons,
        Finset.insert_union, Finset.union_insert]

/-- The total of a ledger column freshly initialised from the empty map:
each of the `ks.length` distinct keys holds `v`. -/
theorem FMap.setAllConst_empty_total (ks : List ℕ) (v : ℚ) (hnd : ks.Nodup) :
    ((FMap.empty : FMap ℚ).setAllConst ks v).total = (ks.length : ℚ) * v := by
  unfold FMap.total
  rw [FMap.setAllConst_dom]
  have hdom : (FMap.empty : FMap ℚ).dom ∪ ks.toFinset = ks.toFinset := by
    simp [FMap.empty]
  rw [hdom]
  have hval : ∀ x ∈ ks.toFinset, (FMap.empty.setAllConst ks v).val x = v := by
    intro x hx
    rw [List.mem_toFinset] at hx
    have := FMap.setAllConst_get FMap.empty ks v x
    rw [if_pos hx] at this
    exact this
  rw [Finset.sum_congr rfl hval, Finset.sum_const, nsmul_eq_mul,
    List.toFinset_card_of_nodup hnd]

/-! ## Distribution lemmas -/

theorem distCur2_WF (o : OPIC) (s : ℕ) (out : List ℕ)
    (h : o.current.WF) : (distCur2 o s out).WF :=
  FMap.addAll_WF _ _ _ (FMap.set_WF _ _ _ h)

theorem distCur2_get_zero (o : OPIC) (s : ℕ) (out : List ℕ) :
    (distCur2 o s out).get 0
      = o.current.get 0 + distShare o s out
        + (out.count 0 : ℚ) * distShare o s out := by
  rw [distCur2, FMap.addAll_get, FMap.get_set_self]

theorem distCur2_get_ne (o : OPIC) (s : ℕ) (out : List ℕ) (y : ℕ)
    (hy : y ≠ 0) :
    (distCur2 o s out).get y
      = o.current.get y + (out.count y : ℚ) * distShare o s out := by
  rw [distCur2, FMap.addAll_get, FMap.get_set_ne _ _ _ _ hy]

theorem distCur2_dom (o : OPIC) (s : ℕ) (out : List ℕ) :
    (distCur2 o s out).dom = insert 0 o.current.dom ∪ out.toFinset := by
  rw [distCur2, FMap.addAll_dom, FMap.set_dom]

theorem distCur2_total (o : OPIC) (s : ℕ) (out : List ℕ)
    (h : o.current.WF) :
    (distCur2 o s out).total
      = o.current.total + ((out.length : ℚ) + 1) * distShare o s out := by
  rw [distCur2, FMap.addAll_total _ _ _ (FMap.set_WF _ _ _ h),
    FMap.total_set _ h]
  ring

/-- The current-cash map after `DistributeN`, in closed form. -/
theorem distributeN_current (o : OPIC) (s : ℕ) (out : List ℕ) (t now : ℤ) :
    (DistributeN o s out t now).1.current
      = ((distCur2 o s out).set 0
          ((distCur2 o s out).get 0 - distSkim o s out)).set s
          (distSkim o s out) := rfl

theorem distributeN_current_WF (o : OPIC) (s : ℕ) (out : List ℕ)
    (t now : ℤ) (h : o.current.WF) :
    (DistributeN o s out t now).1.current.WF :=
  FMap.set_WF _ _ _ (FMap.set_WF _ _ _ (distCur2_WF o s out h))

/-- The conservation ledger of one distribution, in exact arithmetic:
the total of the current column changes by the shares that went to
occurrences of the source key among the outputs (and is conserved when
there are none).  Requires the source key to be neither the virtual
key 0 nor overwritten mid-loop. -/
theorem distributeN_current_total (o : OPIC) (h : o.current.WF) (s : ℕ)
    (out : List ℕ) (t now : ℤ) (h0 : s ≠ 0) :
    (DistributeN o s out t now).1.current.total
      = o.current.total - (out.count s : ℚ) * distShare o s out := by
  have hWF2 := distCur2_WF o s out h
  have hWF3 := (distCur2 o s out).set_WF 0
    ((distCur2 o s out).get 0 - distSkim o s out) hWF2
  rw [distributeN_current, FMap.total_set _ hWF3, FMap.total_set _ hWF2,
    FMap.get_set_ne _ _ _ _ h0, distCur2_get_ne o s out s h0,
    distCur2_total o s out h]
  have hne : ((out.length : ℚ) + 1) ≠ 0 := by positivity
  have hc : ((out.length : ℚ) + 1) * distShare o s out = o.current.get s := by
    rw [distShare, mul_div_cancel₀ _ hne]
  linarith

/-! ## Reachability invariant -/

/-- Every state reachable by one even initialisation over distinct keys
followed by non-colliding distributions keeps a well-formed current
column whose total is exactly the injected cash. -/
theorem reaches_invariant (o : OPIC) (cash : ℚ) (h : Reaches o cash) :
    o.current.WF ∧ o.current.total = cash := by
  induction h with
  | init cash ids hnd hne =>
      constructor
      · exact FMap.setAllConst_WF _ _ _ FMap.empty_WF
      · show ((FMap.empty : FMap ℚ).setAllConst ids _).total = cash
        rw [FMap.setAllConst_empty_total _ _ hnd]
        have hlen : (ids.length : ℚ) ≠ 0 := by
          have : ids.length ≠ 0 := fun hz => hne (List.length_eq_zero.mp hz)
          exact_mod_cast this
        rw [mul_div_cancel₀ _ hlen]
  | dist o cash sourceH out t now hr h0 hs ih =>
      refine ⟨distributeN_current_WF o sourceH out t now ih.1, ?_⟩
      rw [distributeN_current_total o ih.1 sourceH out t now h0,
        List.count_eq_zero_of_not_mem hs, ih.2]
      push_cast
      ring

/-! ## Concrete evaluation of the specification scenario -/

theorem scen0_get_gen (y : ℕ) :
    scen0.current.get y
      = if y ∈ [idA, idB, idC].map fnvHash
        then 3 / (([idA, idB, idC].map fnvHash).length : ℚ) else 0 := by
  show ((FMap.empty : FMap ℚ).setAllConst ([idA, idB, idC].map fnvHash)
    (3 / (([idA, idB, idC].map fnvHash).length : ℚ))).get y = _
  rw [FMap.setAllConst_get]
  rfl

theorem scen0_current_WF : scen0.current.WF := by
  show ((FMap.empty : FMap ℚ).setAllConst ([idA, idB, idC].map fnvHash)
    (3 / (([idA, idB, idC].map fnvHash).length : ℚ))).WF
  exact FMap.setAllConst_WF _ _ _ FMap.empty_WF

theorem scen0_get_A : scen0.current.get (fnvHash idA) = 1 := by
  rw [scen0_get_gen, if_pos (by decide)]
  norm_num

theorem scen0_get_B : scen0.current.get (fnvHash idB) = 1 := by
  rw [scen0_get_gen, if_pos (by decide)]
  norm_num

theorem scen0_get_C : scen0.current.get (fnvHash idC) = 1 := by
  rw [scen0_get_gen, if_pos (by decide)]
  norm_num

theorem scen0_get_zero : scen0.current.get 0 = 0 := by
  rw [scen0_get_gen, if_neg (by decide)]

theorem scen0_total : scen0.current.total = 3 := by
  rw [FMap.total,
    show scen0.current.dom = {fnvHash idA, fnvHash idB, fnvHash idC} by decide,
    Finset.sum_insert (by decide), Finset.sum_insert (by decide),
    Finset.sum_singleton,
    show scen0.current.val (fnvHash idA) = 1 from scen0_get_A,
    show scen0.current.val (fnvHash idB) = 1 from scen0_get_B,
    show scen0.current.val (fnvHash idC) = 1 from scen0_get_C]
  norm_num

theorem scen1_share : distShare scen0 (fnvHash idA) ([idB].map fnvHash) = 1/2 := by
  rw [distShare, scen0_get_A, show ([idB].map fnvHash).length = 1 from rfl]
  norm_num

theorem scen1_virtual_before :
    (distCur2 scen0 (fnvHash idA) ([idB].map fnvHash)).get 0 = 1/2 := by
  rw [distCur2_get_zero, scen0_get_zero, scen1_share,
    show (([idB].map fnvHash).count 0) = 0 by decide]
  norm_num

theorem scen1_skim : distSkim scen0 (fnvHash idA) ([idB].map fnvHash) = 1/10 := by
  rw [distSkim, scen1_virtual_before,
    show (distCur2 scen0 (fnvHash idA) ([idB].map fnvHash)).size = 4 by decide]
  norm_num

theorem scen1_get_A : scen1.current.get (fnvHash idA) = 1/10 := by
  show ((((distCur2 scen0 (fnvHash idA) ([idB].map fnvHash))).set 0 _).set
    (fnvHash idA) (distSkim scen0 (fnvHash idA) ([idB].map fnvHash))).get
    (fnvHash idA) = 1/10
  rw [FMap.get_set_self, scen1_skim]

theorem scen1_get_zero : scen1.current.get 0 = 2/5 := by
  show ((((distCur2 scen0 (fnvHash idA) ([idB].map fnvHash))).set 0
    ((distCur2 scen0 (fnvHash idA) ([idB].map fnvHash)).get 0
      - distSkim scen0 (fnvHash idA) ([idB].map fnvHash))).set
    (fnvHash idA) (distSkim scen0 (fnvHash idA) ([idB].map fnvHash))).get 0 = 2/5
  rw [FMap.get_set_ne _ _ _ _ (by decide), FMap.get_set_self,
    scen1_virtual_before, scen1_skim]
  norm_num

theorem scen1_get_B : scen1.current.get (fnvHash idB) = 3/2 := by
  show ((((distCur2 scen0 (fnvHash idA) ([idB].map fnvHash))).set 0 _).set
    (fnvHash idA) _).get (fnvHash idB) = 3/2
  rw [FMap.get_set_ne _ _ _ _ (by decide), FMap.get_set_ne _ _ _ _ (by decide),
    distCur2_get_ne _ _ _ _ (by decide), scen0_get_B, scen1_share,
    show (([idB].map fnvHash).count (fnvHash idB)) = 1 by decide]
  norm_num

theorem scen1_get_C : scen1.current.get (fnvHash idC) = 1 := by
  show ((((distCur2 scen0 (fnvHash idA) ([idB].map fnvHash))).set 0 _).set
    (fnvHash idA) _).get (fnvHash idC) = 1
  rw [FMap.get_set_ne _ _ _ _ (by decide), FMap.get_set_ne _ _ _ _ (by decide),
    distCur2_get_ne _ _ _ _ (by decide), scen0_get_C,
    show (([idB].map fnvHash).count (fnvHash idC)) = 0 by decide]
  norm_num

theorem scen1_history_A : scen1.history.get (fnvHash idA) = 1 := by
  show (scen0.history.set (fnvHash idA) (scen0.current.get (fnvHash idA))).get
    (fnvHash idA) = 1
  rw [FMap.get_set_self, scen0_get_A]

theorem scen1_cleared_A : scen1.cleared.get (fnvHash idA) = scenT1 := by decide

theorem scen1_return : (Distribute scen0 idA [idB] scenT1 scenNow).2 = 1 :=
  scen0_get_A

theorem scen1_current_total : scen1.current.total = 3 := by
  rw [FMap.total,
    show scen1.current.dom = {fnvHash idA, 0, fnvHash idB, fnvHash idC} by decide,
    Finset.sum_insert (by decide), Finset.sum_insert (by decide),
    Finset.sum_insert (by decide), Finset.sum_singleton,
    show scen1.current.val (fnvHash idA) = 1/10 from scen1_get_A,
    show scen1.current.val 0 = 2/5 from scen1_get_zero,
    show scen1.current.val (fnvHash idB) = 3/2 from scen1_get_B,
    show scen1.current.val (fnvHash idC) = 1 from scen1_get_C]
  norm_num

theorem scen1_history_total : scen1.history.total = 1 := by
  rw [FMap.total, show scen1.history.dom = {fnvHash idA} by decide,
    Finset.sum_singleton,
    show scen1.history.val (fnvHash idA) = 1 from scen1_history_A]

theorem scenSelf_share : distShare scen0 (fnvHash idA) ([idA].map fnvHash) = 1/2 := by
  rw [distShare, scen0_get_A, show ([idA].map fnvHash).length = 1 from rfl]
  norm_num

theorem scenSelf_virtual_before :
    (distCur2 scen0 (fnvHash idA) ([idA].map fnvHash)).get 0 = 1/2 := by
  rw [distCur2_get_zero, scen0_get_zero, scenSelf_share,
    show (([idA].map fnvHash).count 0) = 0 by decide]
  norm_num

theorem scenSelf_skim : distSkim scen0 (fnvHash idA) ([idA].map fnvHash) = 1/10 := by
  rw [distSkim, scenSelf_virtual_before,
    show (distCur2 scen0 (fnvHash idA) ([idA].map fnvHash)).size = 4 by decide]
  norm_num

theorem scenSelf_get_A : scenSelf.current.get (fnvHash idA) = 1/10 := by
  show ((((distCur2 scen0 (fnvHash idA) ([idA].map fnvHash))).set 0 _).set
    (fnvHash idA) (distSkim scen0 (fnvHash idA) ([idA].map fnvHash))).get
    (fnvHash idA) = 1/10
  rw [FMap.get_set_self, scenSelf_skim]

theorem scenSelf_get_zero : scenSelf.current.get 0 = 2/5 := by
  show ((((distCur2 scen0 (fnvHash idA) ([idA].map fnvHash))).set 0
    ((distCur2 scen0 (fnvHash idA) ([idA].map fnvHash)).get 0
      - distSkim scen0 (fnvHash idA) ([idA].map fnvHash))).set
    (fnvHash idA) _).get 0 = 2/5
  rw [FMap.get_set_ne _ _ _ _ (by decide), FMap.get_set_self,
    scenSelf_virtual_before, scenSelf_skim]
  norm_num

theorem scenSelf_get_B : scenSelf.current.get (fnvHash idB) = 1 := by
  show ((((distCur2 scen0 (fnvHash idA) ([idA].map fnvHash))).set 0 _).set
    (fnvHash idA) _).get (fnvHash idB) = 1
  rw [FMap.get_set_ne _ _ _ _ (by decide), FMap.get_set_ne _ _ _ _ (by decide),
    distCur2_get_ne _ _ _ _ (by decide), scen0_get_B,
    show (([idA].map fnvHash).count (fnvHash idB)) = 0 by decide]
  norm_num

theorem scenSelf_get_C : scenSelf.current.get (fnvHash idC) = 1 := by
  show ((((distCur2 scen0 (fnvHash idA) ([idA].map fnvHash))).set 0 _).set
    (fnvHash idA) _).get (fnvHash idC) = 1
  rw [FMap.get_set_ne _ _ _ _ (by decide), FMap.get_set_ne _ _ _ _ (by decide),
    distCur2_get_ne _ _ _ _ (by decide), scen0_get_C,
    show (([idA].map fnvHash).count (fnvHash idC)) = 0 by decide]
  norm_num

theorem scenSelf_current_total : scenSelf.current.total = 5/2 := by
  rw [FMap.total,
    show scenSelf.current.dom = {fnvHash idA, 0, fnvHash idB, fnvHash idC} by decide,
    Finset.sum_insert (by decide), Finset.sum_insert (by decide),
    Finset.sum_insert (by decide), Finset.sum_singleton,
    show scenSelf.current.val (fnvHash idA) = 1/10 from scenSelf_get_A,
    show scenSelf.current.val 0 = 2/5 from scenSelf_get_zero,
    show scenSelf.current.val (fnvHash idB) = 1 from scenSelf_get_B,
    show scenSelf.current.val (fnvHash idC) = 1 from scenSelf_get_C]
  norm_num

/-! ## Codec lemmas -/
set_option maxHeartbeats 400000
theorem readPairsQ_entries (m : FMap ℚ) (ks : List ℕ) (rest : List Word) :
    readPairsQ ks.length (entriesQ m ks ++ rest)
      = .ok (ks.map fun k => (k, m.get k), rest) := by
  induction ks with
  | nil => rfl
  | cons k ks ih =>
      simp only [entriesQ, List.cons_append, List.length_cons, readPairsQ]
      have ih2 : readPairsQ ks.length ((entriesQ m ks).append rest)
          = Except.ok (ks.map (fun k => (k, m.get k)), rest) := ih
      rw [ih2]
      rfl

theorem readPairsT_entries (m : FMap ℤ) (ks : List ℕ) (rest : List Word) :
    readPairsT ks.length (entriesT m ks ++ rest)
      = .ok (ks.map fun k => (k, (m.get k).fdiv nanosPerSecond), rest) := by
  induction ks with
  | nil => rfl
  | cons k ks ih =>
      simp only [entriesT, List.cons_append, List.length_cons, readPairsT]
      have ih2 : readPairsT ks.length ((entriesT m ks).append rest)
          = Except.ok (ks.map (fun k => (k, (m.get k).fdiv nanosPerSecond)), rest) := ih
      rw [ih2]
      rfl
theorem storePairsQ_get (m : FMap ℚ) (f : ℕ → ℚ) (ks : List ℕ) (y : ℕ) :
    (storePairsQ m (ks.map fun k => (k, f k))).get y
      = if y ∈ ks then f y else m.get y := by
  induction ks generalizing m with
  | nil => simp [storePairsQ]
  | cons k ks ih =>
      show (storePairsQ (m.set k (f k)) (ks.map fun k => (k, f k))).get y = _
      rw [ih]
      by_cases hy : y ∈ ks
      · simp [hy]
      · by_cases hyk : y = k
        · subst hyk
          simp [hy, FMap.get_set_self]
        · simp [hy, hyk, FMap.get_set_ne _ _ _ _ hyk]

theorem storePairsQ_dom (m : FMap ℚ) (f : ℕ → ℚ) (ks : List ℕ) :
    (storePairsQ m (ks.map fun k => (k, f k))).dom = m.dom ∪ ks.toFinset := by
  induction ks generalizing m with
  | nil => simp [storePairsQ]
  | cons k ks ih =>
      show (storePairsQ (m.set k (f k)) (ks.map fun k => (k, f k))).dom = _
      rw [ih, FMap.set_dom, List.toFinset_cons, Finset.insert_union,
        Finset.union_insert]

theorem storePairsT_get (m : FMap ℤ) (f : ℕ → ℤ) (ks : List ℕ) (y : ℕ) :
    (storePairsT m (ks.map fun k => (k, f k))).get y
      = if y ∈ ks then f y * nanosPerSecond else m.get y := by
  induction ks generalizing m with
  | nil => simp [storePairsT]
  | cons k ks ih =>
      show (storePairsT (m.set k (f k * nanosPerSecond))
        (ks.map fun k => (k, f k))).get y = _
      rw [ih]
      by_cases hy : y ∈ ks
      · simp [hy]
      · by_cases hyk : y = k
        · subst hyk
          simp [hy, FMap.get_set_self]
        · simp [hy, hyk, FMap.get_set_ne _ _ _ _ hyk]

theorem storePairsT_dom (m : FMap ℤ) (f : ℕ → ℤ) (ks : List ℕ) :
    (storePairsT m (ks.map fun k => (k, f k))).dom = m.dom ∪ ks.toFinset := by
  induction ks generalizing m with
  | nil => simp [storePairsT]
  | cons k ks ih =>
      show (storePairsT (m.set k (f k * nanosPerSecond))
        (ks.map fun k => (k, f k))).dom = _
      rw [ih, FMap.set_dom, List.toFinset_cons, Finset.insert_union,
        Finset.union_insert]
set_option maxHeartbeats 1000000

theorem readU64_cons (n : ℕ) (ws : List Word) :
    readU64 (.u64 n :: ws) = .ok (n, ws) := rfl

theorem bind_ok {ε α β : Type} (a : α) (f : α → Except ε β) :
    (Except.ok a : Except ε α).bind f = f a := rfl

theorem readFrom_writeTo (s : OPIC) (kc kh kf : List ℕ)
    (hc : s.current.size = kc.length) (hh : s.history.size = kh.length)
    (hf : s.cleared.size = kf.length) :
    ReadFrom New (WriteTo s kc kh kf)
      = .ok { New with
          current := storePairsQ New.current
            (kc.map fun k => (k, s.current.get k)),
          history := storePairsQ New.history
            (kh.map fun k => (k, s.history.get k)),
          cleared := storePairsT New.cleared
            (kf.map fun k => (k, (s.cleared.get k).fdiv nanosPerSecond)) } := by
  unfold WriteTo
  rw [hc, hh, hf]
  unfold ReadFrom
  simp only [List.append_assoc, List.cons_append, List.nil_append]
  rw [readU64_cons]
  rw [bind_ok]
  simp only [eq_self_iff_true, if_true]
  rw [readU64_cons, bind_ok]
  simp only [eq_self_iff_true, if_true]
  rw [readU64_cons, bind_ok]
  simp only [readPairsQ_entries, bind_ok]
  rw [readU64_cons, bind_ok]
  simp only [readPairsQ_entries, bind_ok]
  rw [readU64_cons, bind_ok,
    show entriesT s.cleared kf = entriesT s.cleared kf ++ [] from
      (List.append_nil _).symm,
    readPairsT_entries, bind_ok]

theorem FMap.total_congr (m1 m2 : FMap ℚ) (hd : m1.dom = m2.dom)
    (hv : ∀ k, m1.get k = m2.get k) : m1.total = m2.total := by
  rw [FMap.total, FMap.total, hd]
  exact Finset.sum_congr rfl fun x _ => hv x

theorem FMap.markSeen_WF (m : FMap ℤ) (ks : List ℕ) (now : ℤ) (h : m.WF) :
    (m.markSeen ks now).WF := by
  induction ks generalizing m with
  | nil => exact h
  | cons k ks ih =>
      show ((if k ∈ m.dom then m else m.set k now).markSeen ks now).WF
      by_cases hk : k ∈ m.dom
      · rw [if_pos hk]
        exact ih m h
      · rw [if_neg hk]
        exact ih _ (m.set_WF k now h)

theorem scen1_current_WF : scen1.current.WF :=
  distributeN_current_WF scen0 (fnvHash idA) ([idB].map fnvHash) scenT1
    scenNow scen0_current_WF

theorem scen1_history_WF : scen1.history.WF := by
  show (scen0.history.set (fnvHash idA)
    (scen0.current.get (fnvHash idA))).WF
  exact FMap.set_WF _ _ _ FMap.empty_WF

theorem scen1_cleared_WF : scen1.cleared.WF := by
  show ((scen0.cleared.markSeen ([idB].map fnvHash) scenNow).set
    (fnvHash idA) scenT1).WF
  exact FMap.set_WF _ _ _ (FMap.markSeen_WF _ _ _ FMap.empty_WF)

/-- C8 (amended): encoding a ledger with `WriteTo` under any iteration
orders of its three maps and decoding the words into a fresh ledger
succeeds and yields a ledger that agrees with the original on every
history and current cash value and on `Sums` — always, the floats
copied verbatim and compared exactly — and whose full `GetN` triples
(the cleared time included) agree whenever every stored cleared time is
a whole number of seconds (the format stores `time.Time.Unix()`
seconds, so sub-second parts are truncated: see the counterexample). -/
theorem C8_roundtrip_preserves_get_sums (s : OPIC) (kc kh kf : List ℕ)
    (hwc : s.current.WF) (hwh : s.history.WF) (hwf : s.cleared.WF)
    (hec : Enumerates kc s.current.dom) (heh : Enumerates kh s.history.dom)
    (hef : Enumerates kf s.cleared.dom) :
    ∃ t, ReadFrom New (WriteTo s kc kh kf) = .ok t
      ∧ (∀ k, t.history.get k = s.history.get k)
      ∧ (∀ k, t.current.get k = s.current.get k)
      ∧ Sums t = Sums s
      ∧ ((∀ k, nanosPerSecond ∣ s.cleared.get k) →
          ∀ k, GetN t k = GetN s k) := by
  have hc : s.current.size = kc.length := by
    rw [FMap.size, ← hec.2, List.toFinset_card_of_nodup hec.1]
  have hh : s.history.size = kh.length := by
    rw [FMap.size, ← heh.2, List.toFinset_card_of_nodup heh.1]
  have hf : s.cleared.size = kf.length := by
    rw [FMap.size, ← hef.2, List.toFinset_card_of_nodup hef.1]
  have hgc : ∀ y, (storePairsQ New.current
      (kc.map fun k => (k, s.current.get k))).get y = s.current.get y := by
    intro y
    rw [storePairsQ_get]
    by_cases hy : y ∈ kc
    · rw [if_pos hy]
    · rw [if_neg hy]
      have hnd : y ∉ s.current.dom := by
        rw [← hec.2]
        simpa [List.mem_toFinset] using hy
      rw [FMap.get_eq_zero s.current hwc y hnd]
      rfl
  have hgh : ∀ y, (storePairsQ New.history
      (kh.map fun k => (k, s.history.get k))).get y = s.history.get y := by
    intro y
    rw [storePairsQ_get]
    by_cases hy : y ∈ kh
    · rw [if_pos hy]
    · rw [if_neg hy]
      have hnd : y ∉ s.history.dom := by
        rw [← heh.2]
        simpa [List.mem_toFinset] using hy
      rw [FMap.get_eq_zero s.history hwh y hnd]
      rfl
  have hgf : (∀ k, nanosPerSecond ∣ s.cleared.get k) →
      ∀ y, (storePairsT New.cleared
        (kf.map fun k => (k, (s.cleared.get k).fdiv nanosPerSecond))).get y
        = s.cleared.get y := by
    intro ht y
    rw [storePairsT_get]
    by_cases hy : y ∈ kf
    · rw [if_pos hy]
      rw [Int.fdiv_eq_ediv _ (by norm_num [nanosPerSecond])]
      exact Int.ediv_mul_cancel (ht y)
    · rw [if_neg hy]
      have hnd : y ∉ s.cleared.dom := by
        rw [← hef.2]
        simpa [List.mem_toFinset] using hy
      rw [FMap.get_eq_zero s.cleared hwf y hnd]
      rfl
  refine ⟨_, readFrom_writeTo s kc kh kf hc hh hf,
    fun k => hgh k, fun k => hgc k, ?_, ?_⟩
  · show (_, _) = Sums s
    rw [Sums]
    refine Prod.ext ?_ ?_
    · show (storePairsQ New.history _).total = s.history.total
      refine FMap.total_congr _ _ ?_ hgh
      rw [storePairsQ_dom, heh.2]
      show (∅ : Finset ℕ) ∪ s.history.dom = s.history.dom
      exact Finset.empty_union _
    · show (storePairsQ New.current _).total = s.current.total
      refine FMap.total_congr _ _ ?_ hgc
      rw [storePairsQ_dom, hec.2]
      show (∅ : Finset ℕ) ∪ s.current.dom = s.current.dom
      exact Finset.empty_union _
  · intro ht k
    show (_, _, _) = GetN s k
    rw [GetN, hgc k, hgh k, hgf ht k]


/-! ## The claims -/

/-- C1: starting from an empty ledger, `Initialise(3.0, ["a","b","c"])`
gives each of a, b, c a current cash of 1; the subsequent
`Distribute("a", ["b"], t1)` computes a share of 1/2 added to the
virtual reserve and to b (b's current becomes 3/2), brings the virtual
reserve's current to 1/2, skims `d = (1/2)/(4+1) = 1/10` so the virtual
current becomes 2/5, sets a's current to 1/10, a's history to 1, a's
cleared time to `t1`, and returns 1 — and the hashes of "a", "b", "c"
are indeed pairwise distinct and nonzero. -/
theorem C1_concrete_scenario :
    (fnvHash idA ≠ fnvHash idB ∧ fnvHash idA ≠ fnvHash idC
      ∧ fnvHash idB ≠ fnvHash idC ∧ fnvHash idA ≠ 0 ∧ fnvHash idB ≠ 0
      ∧ fnvHash idC ≠ 0)
    ∧ scen0.current.get (fnvHash idA) = 1
    ∧ scen0.current.get (fnvHash idB) = 1
    ∧ scen0.current.get (fnvHash idC) = 1
    ∧ distShare scen0 (fnvHash idA) ([idB].map fnvHash) = 1/2
    ∧ (distCur2 scen0 (fnvHash idA) ([idB].map fnvHash)).get 0 = 1/2
    ∧ distSkim scen0 (fnvHash idA) ([idB].map fnvHash) = 1/10
    ∧ scen1.current.get (fnvHash idB) = 3/2
    ∧ scen1.current.get 0 = 2/5
    ∧ scen1.current.get (fnvHash idA) = 1/10
    ∧ scen1.history.get (fnvHash idA) = 1
    ∧ scen1.cleared.get (fnvHash idA) = scenT1
    ∧ (Distribute scen0 idA [idB] scenT1 scenNow).2 = 1 :=
  ⟨by decide, scen0_get_A, scen0_get_B, scen0_get_C, scen1_share,
    scen1_virtual_before, scen1_skim, scen1_get_B, scen1_get_zero,
    scen1_get_A, scen1_history_A, scen1_cleared_A, scen1_return⟩

/-- C2 (counterexample): the claimed invariant — the sum over all
entries of `current[k] + history[k]` stays equal to the injected cash —
fails after a single distribution, by a whole unit and in exact
arithmetic: after `Initialise(3, [a,b,c])` and `Distribute(a, [b], t1)`
the two sums add to 4, not 3, because `Distribute` records the
distributed amount in `history` without debiting it anywhere. -/
theorem C2_counterexample_history_plus_current :
    (Sums scen1).1 + (Sums scen1).2 = 4 ∧ ((4 : ℚ) ≠ 3) := by
  constructor
  · show scen1.history.total + scen1.current.total = 4
    rw [scen1_history_total, scen1_current_total]
    norm_num
  · norm_num

/-- C2 (amended): conservation holds for the current column alone: for
every ledger reachable from empty by one `InitialiseN` over distinct
keys followed by any sequence of `DistributeN` calls whose source key is
nonzero and not among that call's output keys, the sum of all current
cash equals the injected cash exactly (in exact arithmetic).  The
history column does not participate in any conserved quantity:
`Distribute` overwrites `history[source]` and `Finalise` overwrites
prior history, so the claimed `current + history` total is not
invariant. -/
theorem C2_current_conservation_reachable (o : OPIC) (cash : ℚ)
    (h : Reaches o cash) : (Sums o).2 = cash :=
  (reaches_invariant o cash h).2

/-- C2 witness: a concrete reachable state — initialise 3 over keys
1, 2, 3, then distribute from key 1 to key 2 — has current total 3. -/
theorem C2_current_conservation_reachable_witness :
    (Sums (DistributeN (InitialiseN New 3 [1, 2, 3]) 1 [2] 11 13).1).2 = 3 :=
  C2_current_conservation_reachable _ 3 (Reaches.dist _ _ 1 [2] 11 13
    (Reaches.init 3 [1, 2, 3] (by decide) (by decide)) (by decide) (by decide))

/-- C3 (counterexample): the total of the current column is not
conserved by `Distribute` for every output list: with the source listed
among its own outputs (`Distribute("a", ["a"], t1)` on the initialised
ledger), the total drops from 3 to 5/2 in exact arithmetic — a real
cash leak, not floating-point rounding. -/
theorem C3_counterexample_self_output :
    (Sums scenSelf).2 = 5/2 ∧ (Sums scen0).2 = 3 ∧ ((5 : ℚ)/2 ≠ 3) :=
  ⟨scenSelf_current_total, scen0_total, by norm_num⟩

/-- C3 (amended): for every source and output list whose hashes avoid
the two overwrite collisions — the source's hash is nonzero (key 0 is
the virtual entry, overwritten by the skim) and does not occur among the
outputs' hashes — the sum of all current cash is exactly unchanged
across `Distribute` (exact arithmetic; the Go floats add rounding on
top of this). -/
theorem C3_distribute_conserves_current (o : OPIC) (source : List ℕ)
    (out : List (List ℕ)) (t now : ℤ) (hWF : o.current.WF)
    (h0 : fnvHash source ≠ 0) (hs : fnvHash source ∉ out.map fnvHash) :
    (Sums (Distribute o source out t now).1).2 = (Sums o).2 := by
  show (DistributeN o (fnvHash source) (out.map fnvHash) t now).1.current.total
    = o.current.total
  rw [distributeN_current_total o hWF _ _ t now h0,
    List.count_eq_zero_of_not_mem hs]
  push_cast
  ring

/-- C3 witness: distributing from "c" to ["a"] on the initialised
ledger leaves the current total unchanged. -/
theorem C3_distribute_conserves_current_witness :
    (Sums (Distribute scen0 idC [idA] 11 13).1).2 = (Sums scen0).2 :=
  C3_distribute_conserves_current scen0 idC [idA] 11 13 scen0_current_WF
    (by decide) (by decide)

/-- C4: evaluating the code at the failing input — `Initialise` with an
empty identifier list is not rejected: the function has no error
return at all and silently leaves every map untouched, only setting the
dirty flag (the non-finite `cash / 0` of the Go source is computed into
a local that the empty loop never stores).  The claimed `InvalidArgument`
rejection does not exist in the code. -/
theorem C4_initialise_empty_not_rejected (o : OPIC) (cash : ℚ) :
    Initialise o cash [] = { o with dirty := true } := rfl

/-- C5: for every identifier whose entry reads `(h, c, clearedAt)` and
every interval and observation time with elapsed `d = t - clearedAt`,
the estimate is `h * (interval - d) / interval + c` when `d < interval`
and `c * (interval / d)` otherwise. -/
theorem C5_estimate_formula (o : OPIC) (v : ℕ) (interval t : ℤ)
    (h c : ℚ) (ct : ℤ) (hg : GetN o v = (h, c, ct)) :
    EstimateN o v interval t
      = if t - ct < interval
        then h * ((interval : ℚ) - ((t - ct : ℤ) : ℚ)) / (interval : ℚ) + c
        else c * ((interval : ℚ) / ((t - ct : ℤ) : ℚ)) := by
  have h1 : (GetN o v).1 = h := by rw [hg]
  have h2 : (GetN o v).2.1 = c := by rw [hg]
  have h3 : (GetN o v).2.2 = ct := by rw [hg]
  simp only [EstimateN, h1, h2, h3]

/-- C5 witness: the formula evaluated on the fresh ledger at key 0 with
interval 10 and time 3. -/
theorem C5_estimate_formula_witness : GetN New 0 = (0, 0, 0)
    ∧ EstimateN New 0 10 3
      = (if (3 : ℤ) - 0 < 10
          then (0 : ℚ) * ((10 : ℚ) - (((3 : ℤ) - 0 : ℤ) : ℚ)) / (10 : ℚ) + 0
          else (0 : ℚ) * ((10 : ℚ) / (((3 : ℤ) - 0 : ℤ) : ℚ))) :=
  ⟨rfl, C5_estimate_formula New 0 10 3 0 0 0 rfl⟩

/-- C6 (counterexample): `EnsureBalance` is not a no-op when the sums
already reach the target: on the fresh ledger with target 0 the sums
`0 ≥ 0` put the call in the claimed no-op branch, yet the ledger
changes — the dirty flag is set unconditionally. -/
theorem C6_counterexample_dirty_flag :
    ¬ ((Sums New).1 + (Sums New).2 < 0) ∧ EnsureBalance New 0 ≠ New := by
  have hge : ¬ ((Sums New).1 + (Sums New).2 < 0) := by
    simp [Sums, New, FMap.total, FMap.empty]
  refine ⟨hge, fun h => ?_⟩
  have hd := congrArg OPIC.dirty h
  rw [EnsureBalance, if_neg hge] at hd
  simp [New] at hd

/-- C6 (amended): `EnsureBalance(n)` always sets the dirty flag; apart
from that flag it leaves the ledger unchanged whenever
`Sums().history + Sums().current >= n`, and otherwise it increases the
virtual reserve's current cash by exactly the deficit
`n - (Sums().history + Sums().current)` and changes nothing else. -/
theorem C6_ensureBalance_effect (o : OPIC) (n : ℚ) :
    (¬ (Sums o).1 + (Sums o).2 < n →
      EnsureBalance o n = { o with dirty := true })
    ∧ ((Sums o).1 + (Sums o).2 < n →
      EnsureBalance o n
        = { o with
            current := o.current.set 0
              (o.current.get 0 + (n - ((Sums o).1 + (Sums o).2))),
            dirty := true }) := by
  constructor <;> intro h <;> simp [EnsureBalance, h]

/-- C6 witness: both branches on the fresh ledger — target 0 leaves
the maps untouched, target 1 adds the deficit to the virtual entry. -/
theorem C6_ensureBalance_effect_witness :
    EnsureBalance New 0 = { New with dirty := true }
    ∧ EnsureBalance New 1
      = { New with
          current := New.current.set 0
            (New.current.get 0 + (1 - ((Sums New).1 + (Sums New).2))),
          dirty := true } := by
  have h0 : ¬ ((Sums New).1 + (Sums New).2 < 0) := by
    simp [Sums, New, FMap.total, FMap.empty]
  have h1 : (Sums New).1 + (Sums New).2 < 1 := by
    simp [Sums, New, FMap.total, FMap.empty]
  exact ⟨(C6_ensureBalance_effect New 0).1 h0, (C6_ensureBalance_effect New 1).2 h1⟩

/-- C7: when the backing file does not exist, `Load` with ignore-missing
enabled returns the ledger unchanged with no error; with it disabled it
returns the I/O error; and every successful load leaves the dirty flag
cleared. -/
theorem C7_load_missing_and_dirty (s : OPIC) (ws : List Word)
    (opts : PersistentLoadOptions) :
    Load s none ⟨true⟩ = .ok s
    ∧ Load s none ⟨false⟩ = .error .fileMissing
    ∧ (∀ t, Load s (some ws) opts = .ok t → t.dirty = false) := by
  refine ⟨rfl, rfl, fun t ht => ?_⟩
  rw [Load] at ht
  cases hrf : ReadFrom s ws with
  | error e => rw [hrf] at ht; exact absurd ht (by simp)
  | ok u =>
      rw [hrf] at ht
      have := Except.ok.inj ht
      rw [← this]

/-- C7 witness: the fresh ledger — a missing file is tolerated exactly
under the option, and a concrete successful load comes out clean. -/
theorem C7_load_missing_and_dirty_witness :
    Load New none ⟨true⟩ = .ok New
    ∧ Load New none ⟨false⟩ = .error .fileMissing
    ∧ (Load New (some (WriteTo New [] [] [])) ⟨true⟩).toOption.map Dirty
      = some false :=
  ⟨(C7_load_missing_and_dirty New [] ⟨true⟩).1,
   (C7_load_missing_and_dirty New [] ⟨true⟩).2.1, by decide⟩

/-- C8 (counterexample): the codec round-trip does not reproduce `Get`
results exactly for every ledger: the format stores cleared times as
whole Unix seconds, so the scenario ledger's cleared time of 5
nanoseconds decodes as 0 — the encoding orders used are genuine
enumerations of the three map domains, the decode succeeds, and the
decoded cleared time differs from the original. -/
theorem C8_counterexample_subsecond_time :
    Enumerates [fnvHash idA, 0, fnvHash idB, fnvHash idC] scen1.current.dom
    ∧ Enumerates [fnvHash idA] scen1.history.dom
    ∧ Enumerates [fnvHash idA, fnvHash idB] scen1.cleared.dom
    ∧ (ReadFrom New (WriteTo scen1 [fnvHash idA, 0, fnvHash idB, fnvHash idC]
        [fnvHash idA] [fnvHash idA, fnvHash idB])).toOption.map
        (fun t => t.cleared.get (fnvHash idA)) = some 0
    ∧ scen1.cleared.get (fnvHash idA) = 5 ∧ (0 : ℤ) ≠ 5 :=
  ⟨by decide, by decide, by decide, by decide, by decide, by decide⟩

/-- C8 witness: the scenario ledger — whose cleared times are
sub-second, so the conditional time part does not even apply — still
round-trips to identical history, current, and Sums results under
genuine enumerations of its three map domains. -/
theorem C8_roundtrip_preserves_get_sums_witness :
    ∃ t, ReadFrom New (WriteTo scen1
        [fnvHash idA, 0, fnvHash idB, fnvHash idC] [fnvHash idA]
        [fnvHash idA, fnvHash idB]) = .ok t
      ∧ (∀ k, t.history.get k = scen1.history.get k)
      ∧ (∀ k, t.current.get k = scen1.current.get k)
      ∧ Sums t = Sums scen1
      ∧ ((∀ k, nanosPerSecond ∣ scen1.cleared.get k) →
          ∀ k, GetN t k = GetN scen1 k) :=
  C8_roundtrip_preserves_get_sums scen1
    [fnvHash idA, 0, fnvHash idB, fnvHash idC] [fnvHash idA]
    [fnvHash idA, fnvHash idB] scen1_current_WF scen1_history_WF
    scen1_cleared_WF (by decide) (by decide) (by decide)

/-- C9 (counterexample): the temporary file is not created on the same
filesystem as the target path: `ioutil.TempFile("", "opic")` puts it in
the system temporary directory regardless of the target, so for a
target under `/data` the two are on different filesystems in this
model. -/
theorem C9_counterexample_temp_directory :
    ¬ sameFilesystem (tempPath "opic1") dataTarget := by
  unfold sameFilesystem
  decide

/-- C9 (amended): `Save` writes the whole serialised ledger to a fresh
temporary file (in the system temporary directory, not necessarily the
target's filesystem), and the canonical file is untouched in every
state before the rename; the rename installs the full serialised state
at the target, and the dirty flag is cleared on success. -/
theorem C9_save_trace (fs : FS) (target : FsPath) (s : OPIC)
    (kc kh kf : List ℕ) (tmp : String) (hne : tempPath tmp ≠ target) :
    (∀ g ∈ (SaveStates fs target s kc kh kf tmp).take 3,
      g target = fs target)
    ∧ (SaveStates fs target s kc kh kf tmp).getLast?
        = some (Save fs target s kc kh kf tmp).1
    ∧ (Save fs target s kc kh kf tmp).1 target = some (WriteTo s kc kh kf)
    ∧ (Save fs target s kc kh kf tmp).2.dirty = false := by
  refine ⟨?_, rfl, ?_, rfl⟩
  · intro g hg
    simp only [SaveStates, List.take, List.mem_cons, List.not_mem_nil,
      or_false] at hg
    rcases hg with h | h | h <;> subst h
    · rfl
    · exact if_neg (fun hh => hne hh.symm)
    · exact if_neg (fun hh => hne hh.symm)
  · show (if target = target then some (WriteTo s kc kh kf)
      else if target = tempPath tmp then none else fs target)
      = some (WriteTo s kc kh kf)
    rw [if_pos rfl]

/-- C9 witness: saving the fresh ledger over `/data/opic.db` on an empty
filesystem — the target is untouched until the rename, then holds the
serialised ledger, and the result is clean. -/
theorem C9_save_trace_witness :
    (∀ g ∈ (SaveStates emptyFS dataTarget New [] [] [] "opic1").take 3,
      g dataTarget = emptyFS dataTarget)
    ∧ (SaveStates emptyFS dataTarget New [] [] [] "opic1").getLast?
        = some (Save emptyFS dataTarget New [] [] [] "opic1").1
    ∧ (Save emptyFS dataTarget New [] [] [] "opic1").1 dataTarget
        = some (WriteTo New [] [] [])
    ∧ (Save emptyFS dataTarget New [] [] [] "opic1").2.dirty = false :=
  C9_save_trace emptyFS dataTarget New [] [] [] "opic1" (by decide)

/-- C10: when the source appears among its own outputs (all output
hashes pairwise distinct and nonzero), the share credited to the source
is discarded by the final overwrite: the source's final current cash is
exactly the skim computed from the pre-call state — the virtual entry's
cash plus one share, divided by the final population plus one — and in
exact arithmetic the total current cash decreases by exactly
`c / (len(outputs) + 1)`. -/
theorem C10_source_in_outputs (o : OPIC) (source : List ℕ)
    (out : List (List ℕ)) (t now : ℤ) (hWF : o.current.WF)
    (hmem : fnvHash source ∈ out.map fnvHash)
    (hnd : (out.map fnvHash).Nodup)
    (hz : ∀ k ∈ out.map fnvHash, k ≠ 0) :
    (Distribute o source out t now).1.current.get (fnvHash source)
        = (o.current.get 0 + distShare o (fnvHash source) (out.map fnvHash))
          / (((insert 0 o.current.dom
              ∪ (out.map fnvHash).toFinset).card : ℚ) + 1)
    ∧ (Sums (Distribute o source out t now).1).2
        = (Sums o).2
          - o.current.get (fnvHash source) / ((out.length : ℚ) + 1) := by
  have h0 : fnvHash source ≠ 0 := hz _ hmem
  constructor
  · show (((distCur2 o (fnvHash source) (out.map fnvHash)).set 0 _).set
      (fnvHash source)
      (distSkim o (fnvHash source) (out.map fnvHash))).get (fnvHash source) = _
    rw [FMap.get_set_self, distSkim, distCur2_get_zero,
      List.count_eq_zero_of_not_mem (fun hm => (hz 0 hm) rfl),
      FMap.size, distCur2_dom]
    norm_num
  · show (DistributeN o (fnvHash source) (out.map fnvHash) t now).1.current.total
      = o.current.total - _
    rw [distributeN_current_total o hWF _ _ t now h0,
      List.count_eq_one_of_mem hnd hmem, distShare, List.length_map]
    norm_num

/-- C10 witness: `Distribute("a", ["a","b"], t)` on the initialised
ledger — the source in its own outputs. -/
theorem C10_source_in_outputs_witness :
    (Distribute scen0 idA [idA, idB] 11 13).1.current.get (fnvHash idA)
        = (scen0.current.get 0
            + distShare scen0 (fnvHash idA) ([idA, idB].map fnvHash))
          / (((insert 0 scen0.current.dom
              ∪ ([idA, idB].map fnvHash).toFinset).card : ℚ) + 1)
    ∧ (Sums (Distribute scen0 idA [idA, idB] 11 13).1).2
        = (Sums scen0).2
          - scen0.current.get (fnvHash idA)
            / (([idA, idB] : List (List ℕ)).length + 1) :=
  C10_source_in_outputs scen0 idA [idA, idB] 11 13 scen0_current_WF
    (by decide) (by decide) (by decide)


end Opic
